import Mathlib

/-!
Verification of the DCGAN exercise notebook (`DCGAN_Exercises-checkpoint.ipynb`).

The notebook's executable logic is embedded shallowly:

* `scale` — the pixel rescaling function (cell `def scale(x, feature_range=(-1,1))`),
  over exact rationals; the float division by `255 - x.min()` produces NaN when
  the divisor is zero, and `x.min()` of an empty array raises, so both are
  modelled as `none`.
* `Dataset.init` — the `Dataset.__init__` split of the test arrays at
  `split_idx = int(len(test.y) * (1 - val_frac))`, including Python's
  truncation-toward-zero `int()` and Python's negative-slice semantics.
* `batches` — the slicing loop `for ii in range(0, len(self.train_y), batch_size)`,
  realised with a structural fuel so it evaluates in the kernel; `batch_size = 0`
  (a `ValueError` in Python) is modelled as the empty batch list.
* `datasetBatches` — the whole `Dataset.batches` method: optional in-place joint
  shuffle of `train_x`/`train_y` by one index permutation, slicing, and the
  scaler applied to each yielded image slice.
* `model_loss` — the adversarial losses.  The generator and discriminator bodies
  are unfilled exercise stubs in the source, so they enter as abstract functions
  `g` (noise batch to image batch) and `d` (image to `(probability, logit)`,
  the same function reused for the real and the generated batch, mirroring
  `reuse=True`); `sigmoid_cross_entropy_with_logits` is TensorFlow's documented
  combined-logit formula `max(x,0) - x*z + log(1 + exp(-|x|))`.
* `model_opt` — the two update procedures restricted by variable-name prefix
  (`startswith('discriminator')` / `startswith('generator')`), with the Adam
  update itself abstract.
* `trainStep` / `train` — the body of the training loop: per batch, draw a fresh
  noise batch, run the discriminator update, then the generator update with the
  same noise, and every `print_every` steps append the re-evaluated losses; a
  ghost event trace records the order of these operations.
-/

/-- Python `int()` applied to an exact rational: truncation toward zero. -/
def pyTrunc (q : ℚ) : ℤ := if 0 ≤ q then ⌊q⌋ else -⌊-q⌋

/-- Effective boundary of the Python slices `a[:k]` / `a[k:]` on a sequence of
length `n`: a negative bound counts from the end; clamping into `[0, n]` is
performed by `List.take` / `List.drop` themselves. -/
def pySliceIdx (k : ℤ) (n : ℕ) : ℕ := if k < 0 then ((n : ℤ) + k).toNat else k.toNat

/-- `split_idx = int(len(test['y'])*(1 - val_frac))` from `Dataset.__init__`,
as an effective slice boundary for a collection of `n` test samples. -/
def splitIdx (val_frac : ℚ) (n : ℕ) : ℕ := pySliceIdx (pyTrunc ((n : ℚ) * (1 - val_frac))) n

/-- `x.min()` of a pixel batch; `none` on the empty batch (numpy raises). -/
def listMin : List ℚ → Option ℚ
  | [] => none
  | a :: t => some (t.foldl min a)

/-- The notebook's `scale(x, feature_range)`:
`x = (x - x.min())/(255 - x.min()); min, max = feature_range; x = x*(max-min) + min`.
The division by `255 - x.min()` is a float division that yields NaN when the
divisor is zero, and `x.min()` raises on an empty batch; both undefined
outcomes are modelled as `none`. -/
def scale (x : List ℚ) (feature_range : ℚ × ℚ) : Option (List ℚ) :=
  match listMin x with
  | none => none
  | some m =>
    if 255 - m = 0 then none
    else some (x.map (fun p => (p - m) / (255 - m) * (feature_range.2 - feature_range.1) + feature_range.1))

/-- A raw SVHN `.mat` payload: the per-sample image list `X` and label list `y`
(the source's 4-D tensor is viewed sample-major, as after `np.rollaxis`). -/
structure RawData (α β : Type) where
  X : List α
  y : List β

/-- The fields of the notebook's `Dataset` after `__init__`. -/
structure Dataset (α β : Type) where
  train_x : List α
  train_y : List β
  test_x : List α
  test_y : List β
  valid_x : List α
  valid_y : List β

/-- `Dataset.__init__(train, test, val_frac)`:
`split_idx = int(len(test['y'])*(1 - val_frac))`;
`test_x, valid_x = X[:split_idx], X[split_idx:]`;
`test_y, valid_y = y[:split_idx], y[split_idx:]`. -/
def Dataset.init (train test : RawData α β) (val_frac : ℚ) : Dataset α β :=
  let k := splitIdx val_frac test.y.length
  { train_x := train.X
    train_y := train.y
    test_x := test.X.take k
    test_y := test.y.take k
    valid_x := test.X.drop k
    valid_y := test.y.drop k }

/-- Fuel-indexed worker for `batches`; the fuel is the list length, so the
definition is structural and evaluates in the kernel. -/
def batchesAux (fuel : ℕ) (bs : ℕ) (xs : List α) : List (List α) :=
  match fuel, xs with
  | 0, _ => []
  | _, [] => []
  | f + 1, a :: t => ((a :: t).take bs) :: batchesAux f bs ((a :: t).drop bs)

/-- The slicing loop of `Dataset.batches`:
`for ii in range(0, len(self.train_y), batch_size): yield slice [ii : ii+batch_size]`.
A zero `batch_size` raises `ValueError` in Python and is modelled as `[]`. -/
def batches (bs : ℕ) (xs : List α) : List (List α) :=
  if bs = 0 then [] else batchesAux xs.length bs xs

/-- Fancy indexing `arr[idx]` with an index list, as used by the shuffle
(`self.train_x = self.train_x[idx]`); `d` is a default for out-of-range
indices (the claims always assume `idx` in range). -/
def reindex (idx : List ℕ) (xs : List α) (d : α) : List α :=
  idx.map (fun i => xs.getD i d)

/-- The in-place shuffle at the top of `Dataset.batches`: when the flag is set,
one index permutation `idx` (the shuffled `np.arange`) is applied to a stored
list; otherwise the list is untouched. -/
def applyShuffle (shuffle : Bool) (idx : List ℕ) (xs : List α) (d : α) : List α :=
  if shuffle then reindex idx xs d else xs

/-- The whole `Dataset.batches` method: optionally shuffle `train_x` and
`train_y` jointly by the same `idx`, slice both with the same loop, and yield
`(self.scaler(x), y)` for each slice. -/
def datasetBatches (scaler : List α → List α) (shuffle : Bool) (idx : List ℕ)
    (bs : ℕ) (train_x : List α) (train_y : List β) (dx : α) (dy : β) :
    List (List α × List β) :=
  List.zipWith (fun bx lb => (scaler bx, lb))
    (batches bs (applyShuffle shuffle idx train_x dx))
    (batches bs (applyShuffle shuffle idx train_y dy))

/-- One trainable variable of the TensorFlow graph: its scoped name and value. -/
def TrainVar (α : Type) : Type := String × α

/-- `minimize(loss, var_list=[v for v in t_vars if v.name.startswith(scope)])`:
the produced update procedure rewrites exactly the variables whose name starts
with `scope`, through the (abstract) Adam update `u`, and leaves every other
variable untouched. -/
def updateScoped (scope : String) (u : String → α → α) (vars : List (String × α)) :
    List (String × α) :=
  vars.map (fun p => if p.1.startsWith scope then (p.1, u p.1 p.2) else p)

/-- `model_opt(d_loss, g_loss, learning_rate, beta1)`: a pair of update
procedures, the first restricted to the `'discriminator'` name scope and the
second to the `'generator'` name scope.  The Adam updates themselves are the
abstract `adamD` / `adamG`. -/
def model_opt (adamD adamG : String → α → α) :
    (List (String × α) → List (String × α)) × (List (String × α) → List (String × α)) :=
  (updateScoped ("discriminator") adamD, updateScoped ("generator") adamG)

/-- The logistic sigmoid, as applied by the discriminator's output layer. -/
noncomputable def sigmoid (x : ℝ) : ℝ := 1 / (1 + Real.exp (-x))

/-- `tf.nn.sigmoid_cross_entropy_with_logits(logits=x, labels=z)`: TensorFlow's
documented combined-logit formula `max(x, 0) - x*z + log(1 + exp(-|x|))`,
the numerically stable fusion of sigmoid and cross-entropy. -/
noncomputable def sigmoid_cross_entropy_with_logits (x z : ℝ) : ℝ :=
  max x 0 - x * z + Real.log (1 + Real.exp (-|x|))

/-- `tf.reduce_mean` over a batch vector. -/
noncomputable def mean (l : List ℝ) : ℝ := l.sum / l.length

/-- `model_loss(input_real, input_z, ...)`.  The generator and discriminator
bodies are unfilled exercise stubs in the source, so they are abstract here:
`g` maps the noise batch to the generated batch and `d` maps one image to its
`(sigmoid output, logit)` pair; `d` is one and the same function on the real
and the generated batch (`reuse=True`).  Labels are `ones_like` for the real
loss and the generator loss and `zeros_like` for the fake loss, and
`d_loss = d_loss_real + d_loss_fake`. -/
noncomputable def model_loss (g : List Z → List X) (d : X → ℝ × ℝ)
    (input_real : List X) (input_z : List Z) : ℝ × ℝ :=
  let g_model := g input_z
  let d_logits_real := input_real.map (fun x => (d x).2)
  let d_logits_fake := g_model.map (fun x => (d x).2)
  let d_loss_real := mean (d_logits_real.map (fun l => sigmoid_cross_entropy_with_logits l 1))
  let d_loss_fake := mean (d_logits_fake.map (fun l => sigmoid_cross_entropy_with_logits l 0))
  let g_loss := mean (d_logits_fake.map (fun l => sigmoid_cross_entropy_with_logits l 1))
  (d_loss_real + d_loss_fake, g_loss)

/-- The spec's reading of each loss term: mean binary cross-entropy stated as
sigmoid followed by a separate log-loss,
`-(z*log(sigmoid x) + (1-z)*log(1 - sigmoid x))`.  Declared only to be proved
equal to the source's combined-logit computation. -/
noncomputable def bce_sigmoid_then_log (z x : ℝ) : ℝ :=
  -(z * Real.log (sigmoid x) + (1 - z) * Real.log (1 - sigmoid x))

/-- Ghost events recording what the body of `train`'s batch loop executes,
in execution order. -/
inductive TrainEvent (X Z : Type) where
  | drawNoise (step : ℕ) (z : Z)
  | runDOpt (step : ℕ) (x : X) (z : Z)
  | runGOpt (step : ℕ) (z : Z) (x : X)
  | evalLoss (step : ℕ)
deriving DecidableEq

/-- The mutable state of `train`: the global step counter, the parameters, the
accumulated loss records, and the ghost event trace. -/
structure TrainState (X Z P L : Type) where
  steps : ℕ
  params : P
  losses : List (L × L)
  trace : List (TrainEvent X Z)

/-- The events of one batch iteration at global step `s` on real batch `x`:
draw the fresh noise `noise s`, run the discriminator update on
`(x, noise s)`, run the generator update on the same `noise s` (and `x`), and
re-evaluate the losses when `s` is a multiple of `print_every`. -/
def stepTrace (noise : ℕ → Z) (print_every : ℕ) (s : ℕ) (x : X) : List (TrainEvent X Z) :=
  [TrainEvent.drawNoise s (noise s), TrainEvent.runDOpt s x (noise s),
   TrainEvent.runGOpt s (noise s) x] ++
  (if s % print_every = 0 then [TrainEvent.evalLoss s] else [])

/-- The body of `train`'s inner loop, for one `(x, y)` batch:
`steps += 1`; `batch_z = np.random.uniform(...)` (modelled by the stream
`noise` indexed by the step counter, so each iteration draws a fresh batch
independent of `x`); `sess.run(net.d_opt, {input_real: x, input_z: batch_z})`;
`sess.run(net.g_opt, {input_z: batch_z, input_real: x})`; and when
`steps % print_every == 0`, evaluate `d_loss` and `g_loss` at the current
parameters (no optimizer is run) and append the pair to `losses`. -/
def trainStep (dOpt : P → X → Z → P) (gOpt : P → Z → X → P)
    (dEval : P → X → Z → L) (gEval : P → Z → L)
    (noise : ℕ → Z) (print_every : ℕ)
    (st : TrainState X Z P L) (x : X) : TrainState X Z P L :=
  let steps := st.steps + 1
  let batch_z := noise steps
  let p1 := dOpt st.params x batch_z
  let p2 := gOpt p1 batch_z x
  { steps := steps
    params := p2
    losses :=
      if steps % print_every = 0 then st.losses ++ [(dEval p2 x batch_z, gEval p2 batch_z)]
      else st.losses
    trace := st.trace ++ stepTrace noise print_every steps x }

/-- `train(net, dataset, epochs, batch_size, print_every)`: `epochs` passes over
the epoch's batch list `bl` (the yield order of `dataset.batches`), folding
`trainStep` from zero steps, empty loss history and empty trace. -/
def train (dOpt : P → X → Z → P) (gOpt : P → Z → X → P)
    (dEval : P → X → Z → L) (gEval : P → Z → L)
    (noise : ℕ → Z) (print_every : ℕ)
    (epochs : ℕ) (bl : List X) (p0 : P) : TrainState X Z P L :=
  (List.range epochs).foldl
    (fun st _ => bl.foldl (trainStep dOpt gOpt dEval gEval noise print_every) st)
    { steps := 0, params := p0, losses := [], trace := [] }

/-- The number of global steps `s` in `(start, start + n]` with
`s % print_every = 0`; the shape in which the loss-history length is computed. -/
def countLog (print_every start : ℕ) : ℕ → ℕ
  | 0 => 0
  | n + 1 => (if (start + 1) % print_every = 0 then 1 else 0) + countLog print_every (start + 1) n

/-- The event trace produced by running the batch loop over the batch list
`l`, starting at global step count `s`: the concatenation of the per-step
event blocks. -/
def traceFrom (noise : ℕ → Z) (print_every : ℕ) : ℕ → List X → List (TrainEvent X Z)
  | _, [] => []
  | s, x :: l => stepTrace noise print_every (s + 1) x ++ traceFrom noise print_every (s + 1) l

/-! ## Loss module: the combined-logit form is the sigmoid cross-entropy -/

theorem sce_eq_bce (x z : ℝ) :
    sigmoid_cross_entropy_with_logits x z = bce_sigmoid_then_log z x := by
  have hE : 0 < Real.exp (-x) := Real.exp_pos _
  have h1E : 0 < 1 + Real.exp (-x) := by linarith
  have hlogsig : Real.log (sigmoid x) = -Real.log (1 + Real.exp (-x)) := by
    rw [sigmoid, one_div, Real.log_inv]
  have hone : 1 - sigmoid x = Real.exp (-x) / (1 + Real.exp (-x)) := by
    rw [sigmoid]
    field_simp
  have hlogone : Real.log (1 - sigmoid x) = -x - Real.log (1 + Real.exp (-x)) := by
    rw [hone, Real.log_div (ne_of_gt hE) (ne_of_gt h1E), Real.log_exp]
  rw [bce_sigmoid_then_log, hlogsig, hlogone, sigmoid_cross_entropy_with_logits]
  rcases le_total 0 x with hx | hx
  · rw [abs_of_nonneg hx, max_eq_left hx]
    ring
  · rw [abs_of_nonpos hx, max_eq_right hx, neg_neg]
    have hfact : 1 + Real.exp (-x) = Real.exp (-x) * (1 + Real.exp x) := by
      have hxx : (-x) + x = 0 := by ring
      rw [mul_add, mul_one, ← Real.exp_add, hxx, Real.exp_zero]
      ring
    rw [hfact, Real.log_mul (ne_of_gt hE) (by positivity), Real.log_exp]
    ring

theorem sce_nonneg (x z : ℝ) (h0 : 0 ≤ z) (h1 : z ≤ 1) :
    0 ≤ sigmoid_cross_entropy_with_logits x z := by
  have hlog : 0 ≤ Real.log (1 + Real.exp (-|x|)) :=
    Real.log_nonneg (by linarith [Real.exp_pos (-|x|)])
  have hmax : x * z ≤ max x 0 := by
    rcases le_total 0 x with hx | hx
    · have : x * z ≤ x := by nlinarith
      exact this.trans (le_max_left x 0)
    · have : x * z ≤ 0 := by nlinarith
      exact this.trans (le_max_right x 0)
  unfold sigmoid_cross_entropy_with_logits
  linarith

theorem mean_nonneg_of (l : List ℝ) (h : ∀ a ∈ l, 0 ≤ a) : 0 ≤ mean l :=
  div_nonneg (List.sum_nonneg h) (Nat.cast_nonneg _)

theorem sce_map_mean_nonneg (l : List ℝ) (z : ℝ) (h0 : 0 ≤ z) (h1 : z ≤ 1) :
    0 ≤ mean (l.map (fun t => sigmoid_cross_entropy_with_logits t z)) := by
  refine mean_nonneg_of _ ?_
  intro a ha
  obtain ⟨t, -, rfl⟩ := List.mem_map.1 ha
  exact sce_nonneg t z h0 h1

/-- Claim C1: `model_loss` returns the pair `(d_loss, g_loss)` where `d_loss`
is the mean sigmoid cross-entropy of the real-batch logits against all-ones
plus the mean sigmoid cross-entropy of the generated-batch logits against
all-zeros, and `g_loss` is the mean sigmoid cross-entropy of the
generated-batch logits against all-ones (the non-saturating objective).  Every
term is computed by the combined-logit formula
`sigmoid_cross_entropy_with_logits`, and that formula provably equals the
separate sigmoid-then-log cross-entropy `bce_sigmoid_then_log`, which is how
the right-hand side states the losses. -/
theorem c1_model_loss_structure (g : List Z → List X) (d : X → ℝ × ℝ)
    (input_real : List X) (input_z : List Z) :
    model_loss g d input_real input_z =
      (mean ((input_real.map (fun x => (d x).2)).map (bce_sigmoid_then_log 1)) +
         mean (((g input_z).map (fun x => (d x).2)).map (bce_sigmoid_then_log 0)),
       mean (((g input_z).map (fun x => (d x).2)).map (bce_sigmoid_then_log 1))) := by
  have h1 : (fun l : ℝ => sigmoid_cross_entropy_with_logits l 1) = bce_sigmoid_then_log 1 :=
    funext fun l => sce_eq_bce l 1
  have h0 : (fun l : ℝ => sigmoid_cross_entropy_with_logits l 0) = bce_sigmoid_then_log 0 :=
    funext fun l => sce_eq_bce l 0
  simp only [model_loss]
  rw [h1, h0]

/-- Claim C9: for all real-valued logits produced by the discriminator on the
real and the generated batch, both components returned by `model_loss` are
non-negative, because each mean sigmoid cross-entropy against a 0/1 target is
non-negative. -/
theorem c9_loss_nonneg (g : List Z → List X) (d : X → ℝ × ℝ)
    (input_real : List X) (input_z : List Z) :
    0 ≤ (model_loss g d input_real input_z).1 ∧
      0 ≤ (model_loss g d input_real input_z).2 := by
  simp only [model_loss]
  refine ⟨add_nonneg ?_ ?_, ?_⟩
  · exact sce_map_mean_nonneg _ 1 (by norm_num) (by norm_num)
  · exact sce_map_mean_nonneg _ 0 (by norm_num) (by norm_num)
  · exact sce_map_mean_nonneg _ 1 (by norm_num) (by norm_num)

/-! ## Scaling: range, monotonicity and the division guard -/

theorem foldl_min_le_init (t : List ℚ) : ∀ a : ℚ, t.foldl min a ≤ a := by
  induction t with
  | nil => intro a; exact le_refl a
  | cons b u ih =>
    intro a
    rw [List.foldl_cons]
    exact (ih (min a b)).trans (min_le_left a b)

theorem foldl_min_le_mem (t : List ℚ) : ∀ a p : ℚ, p ∈ t → t.foldl min a ≤ p := by
  induction t with
  | nil => intro a p hp; exact absurd hp (List.not_mem_nil p)
  | cons b u ih =>
    intro a p hp
    rw [List.foldl_cons]
    rcases List.mem_cons.1 hp with rfl | hp
    · exact (foldl_min_le_init u (min a p)).trans (min_le_right a p)
    · exact ih (min a b) p hp

theorem foldl_min_mem_or (t : List ℚ) : ∀ a : ℚ, t.foldl min a = a ∨ t.foldl min a ∈ t := by
  induction t with
  | nil => intro a; exact Or.inl rfl
  | cons b u ih =>
    intro a
    rw [List.foldl_cons]
    rcases ih (min a b) with h | h
    · rw [h]
      rcases le_total a b with hab | hab
      · exact Or.inl (min_eq_left hab)
      · exact Or.inr (by rw [min_eq_right hab]; exact List.mem_cons_self b u)
    · exact Or.inr (List.mem_cons_of_mem b h)

theorem listMin_le (xs : List ℚ) (m : ℚ) (h : listMin xs = some m) : ∀ p ∈ xs, m ≤ p := by
  cases xs with
  | nil => exact absurd h (by simp [listMin])
  | cons a t =>
    have hm : t.foldl min a = m := by simpa [listMin] using h
    intro p hp
    rcases List.mem_cons.1 hp with rfl | hp
    · rw [← hm]; exact foldl_min_le_init t p
    · rw [← hm]; exact foldl_min_le_mem t a p hp

theorem listMin_mem (xs : List ℚ) (m : ℚ) (h : listMin xs = some m) : m ∈ xs := by
  cases xs with
  | nil => exact absurd h (by simp [listMin])
  | cons a t =>
    have hm : t.foldl min a = m := by simpa [listMin] using h
    rcases foldl_min_mem_or t a with h2 | h2
    · rw [← hm, h2]; exact List.mem_cons_self a t
    · rw [← hm]; exact List.mem_cons_of_mem a h2

theorem listMin_isSome (xs : List ℚ) (h : xs ≠ []) : ∃ m, listMin xs = some m := by
  cases xs with
  | nil => exact absurd rfl h
  | cons a t => exact ⟨t.foldl min a, rfl⟩

theorem scale_eq_of_min (xs : List ℚ) (m : ℚ) (fr : ℚ × ℚ) (hm : listMin xs = some m) :
    scale xs fr =
      if 255 - m = 0 then none
      else some (xs.map (fun p => (p - m) / (255 - m) * (fr.2 - fr.1) + fr.1)) := by
  unfold scale
  rw [hm]

/-- Claim C2 (amended): for every image batch whose pixel values lie in
`[0, 255]` and that contains at least one pixel strictly below 255, the output
of `scale` with feature range `(-1, 1)` exists, lies entirely within
`[-1, 1]`, has one output per input pixel, and is monotone in the input value:
a larger input pixel never maps to a smaller output. -/
theorem c2_scale_range_monotone (xs : List ℚ)
    (hrange : ∀ p ∈ xs, 0 ≤ p ∧ p ≤ 255) (hlt : ∃ p ∈ xs, p < 255) :
    ∃ ys, scale xs (-1, 1) = some ys ∧
      ys.length = xs.length ∧
      (∀ y ∈ ys, -1 ≤ y ∧ y ≤ 1) ∧
      (∀ i j : ℕ, i < xs.length → j < xs.length →
        xs.getD i 0 ≤ xs.getD j 0 → ys.getD i 0 ≤ ys.getD j 0) := by
  obtain ⟨p0, hp0, hp0lt⟩ := hlt
  have hne : xs ≠ [] := by
    intro h
    rw [h] at hp0
    exact absurd hp0 (List.not_mem_nil p0)
  obtain ⟨m, hm⟩ := listMin_isSome xs hne
  have hmle := listMin_le xs m hm
  have hmem := listMin_mem xs m hm
  have hm0 : 0 ≤ m := (hrange m hmem).1
  have hm255 : m < 255 := lt_of_le_of_lt (hmle p0 hp0) hp0lt
  have hden : 0 < 255 - m := by linarith
  have hscale : scale xs (-1, 1) =
      some (xs.map (fun p => (p - m) / (255 - m) * (((-1 : ℚ), (1 : ℚ)).2 - ((-1 : ℚ), (1 : ℚ)).1) + ((-1 : ℚ), (1 : ℚ)).1)) := by
    rw [scale_eq_of_min xs m _ hm, if_neg hden.ne']
  refine ⟨_, hscale, ?_, ?_, ?_⟩
  · exact List.length_map xs _
  · intro y hy
    obtain ⟨p, hp, rfl⟩ := List.mem_map.1 hy
    have h1 : 0 ≤ (p - m) / (255 - m) := div_nonneg (by linarith [hmle p hp]) hden.le
    have h2 : (p - m) / (255 - m) ≤ 1 := (div_le_one hden).2 (by linarith [(hrange p hp).2])
    constructor <;> · simp only []; nlinarith
  · intro i j hi hj hij
    have hilen : i < (xs.map (fun p => (p - m) / (255 - m) * (((-1 : ℚ), (1 : ℚ)).2 - ((-1 : ℚ), (1 : ℚ)).1) + ((-1 : ℚ), (1 : ℚ)).1)).length := by
      simpa using hi
    have hjlen : j < (xs.map (fun p => (p - m) / (255 - m) * (((-1 : ℚ), (1 : ℚ)).2 - ((-1 : ℚ), (1 : ℚ)).1) + ((-1 : ℚ), (1 : ℚ)).1)).length := by
      simpa using hj
    rw [List.getD_eq_getElem _ _ hilen, List.getD_eq_getElem _ _ hjlen,
      List.getElem_map, List.getElem_map]
    rw [List.getD_eq_getElem _ _ hi, List.getD_eq_getElem _ _ hj] at hij
    have hdiv : (xs[i] - m) / (255 - m) ≤ (xs[j] - m) / (255 - m) :=
      (div_le_div_iff_of_pos_right hden).2 (by linarith)
    simp only []
    nlinarith

/-- Claim C2, counterexample to the unamended statement: the batch `[255]` has
all pixel values in `[0, 255]`, yet `scale` reaches the division by
`255 - min = 0` (a NaN in float semantics, `none` in this model), so its
output does not lie within `[-1, 1]`. -/
theorem c2_counterexample :
    (∀ p ∈ [(255 : ℚ)], 0 ≤ p ∧ p ≤ 255) ∧ scale [(255 : ℚ)] (-1, 1) = none := by
  constructor
  · intro p hp
    rw [List.mem_singleton.1 hp]
    norm_num
  · norm_num [scale, listMin]

theorem c2_witness :
    ∃ ys, scale [(0 : ℚ), 255] (-1, 1) = some ys ∧
      ys.length = ([(0 : ℚ), 255]).length ∧
      (∀ y ∈ ys, -1 ≤ y ∧ y ≤ 1) ∧
      (∀ i j : ℕ, i < ([(0 : ℚ), 255]).length → j < ([(0 : ℚ), 255]).length →
        ([(0 : ℚ), 255]).getD i 0 ≤ ([(0 : ℚ), 255]).getD j 0 →
        ys.getD i 0 ≤ ys.getD j 0) :=
  c2_scale_range_monotone [0, 255]
    (by
      intro p hp
      rcases List.mem_cons.1 hp with rfl | hp
      · norm_num
      · rw [List.mem_singleton.1 hp]; norm_num)
    ⟨0, by simp, by norm_num⟩

/-- Claim C10: `scale` divides by `255` minus the batch minimum, so (over
batches with pixels at most 255) its result is defined exactly when some pixel
is strictly below 255; on a batch whose pixels all equal 255 the
division-by-zero branch is reached and the result is undefined (`none`). -/
theorem c10_scale_guard (xs : List ℚ) (hne : xs ≠ []) (hle : ∀ p ∈ xs, p ≤ 255) :
    (scale xs (-1, 1) ≠ none ↔ ∃ p ∈ xs, p < 255) ∧
      ((∀ p ∈ xs, p = 255) → scale xs (-1, 1) = none) := by
  obtain ⟨m, hm⟩ := listMin_isSome xs hne
  have hmem := listMin_mem xs m hm
  have hmle := listMin_le xs m hm
  have hm255 : m ≤ 255 := hle m hmem
  have heq := scale_eq_of_min xs m (-1, 1) hm
  constructor
  · rw [heq]
    by_cases h0 : 255 - m = 0
    · rw [if_pos h0]
      constructor
      · intro h
        exact absurd rfl h
      · rintro ⟨p, hp, hplt⟩
        have := hmle p hp
        exact absurd hplt (by linarith)
    · rw [if_neg h0]
      have hmlt : m < 255 := lt_of_le_of_ne hm255 (fun h => h0 (by rw [h]; ring))
      exact ⟨fun _ => ⟨m, hmem, hmlt⟩, fun _ => by simp⟩
  · intro hall
    rw [heq, hall m hmem]
    norm_num

theorem c10_witness :
    (scale [(0 : ℚ), 255] (-1, 1) ≠ none ↔ ∃ p ∈ [(0 : ℚ), 255], p < 255) ∧
      ((∀ p ∈ [(0 : ℚ), 255], p = 255) → scale [(0 : ℚ), 255] (-1, 1) = none) :=
  c10_scale_guard [0, 255] (by simp)
    (by
      intro p hp
      rcases List.mem_cons.1 hp with rfl | hp
      · norm_num
      · rw [List.mem_singleton.1 hp])

/-! ## Dataset split -/

theorem take_zip_comm : ∀ (n : ℕ) (xs : List α) (ys : List β),
    (xs.zip ys).take n = (xs.take n).zip (ys.take n) := by
  intro n
  induction n with
  | zero => intro xs ys; simp
  | succ n ih =>
    intro xs ys
    cases xs with
    | nil => simp
    | cons a t =>
      cases ys with
      | nil => simp
      | cons b u => simp [List.zip_cons_cons, List.take_succ_cons, ih]

theorem drop_zip_comm : ∀ (n : ℕ) (xs : List α) (ys : List β),
    (xs.zip ys).drop n = (xs.drop n).zip (ys.drop n) := by
  intro n
  induction n with
  | zero => intro xs ys; simp
  | succ n ih =>
    intro xs ys
    cases xs with
    | nil => simp
    | cons a t =>
      cases ys with
      | nil => simp
      | cons b u => simp [List.zip_cons_cons, List.drop_succ_cons, ih]

/-- Claim C3: for every test collection and every validation fraction,
`Dataset.__init__` partitions the test collection: test and validation sizes
sum to the original size (for labels and for images), concatenating the two
parts in order gives back the original collection (so no sample index lands in
both parts and none is lost), and images and labels are split at one and the
same index, so that the test part and the validation part each carry exactly
the original image/label pairing. -/
theorem c3_dataset_partition (train test : RawData α β) (val_frac : ℚ) :
    (Dataset.init train test val_frac).test_y.length +
        (Dataset.init train test val_frac).valid_y.length = test.y.length ∧
      (Dataset.init train test val_frac).test_x.length +
        (Dataset.init train test val_frac).valid_x.length = test.X.length ∧
      (Dataset.init train test val_frac).test_y ++
        (Dataset.init train test val_frac).valid_y = test.y ∧
      (Dataset.init train test val_frac).test_x ++
        (Dataset.init train test val_frac).valid_x = test.X ∧
      (Dataset.init train test val_frac).test_x.zip (Dataset.init train test val_frac).test_y =
        (test.X.zip test.y).take (splitIdx val_frac test.y.length) ∧
      (Dataset.init train test val_frac).valid_x.zip (Dataset.init train test val_frac).valid_y =
        (test.X.zip test.y).drop (splitIdx val_frac test.y.length) := by
  simp only [Dataset.init]
  refine ⟨?_, ?_, ?_, ?_, ?_, ?_⟩
  · rw [← List.length_append, List.take_append_drop]
  · rw [← List.length_append, List.take_append_drop]
  · exact List.take_append_drop _ _
  · exact List.take_append_drop _ _
  · exact (take_zip_comm _ _ _).symm
  · exact (drop_zip_comm _ _ _).symm

/-! ## Batch slicing -/

theorem batchesAux_nil (f bs : ℕ) : batchesAux f bs ([] : List α) = [] := by
  cases f <;> rfl

theorem batchesAux_fuel_eq (bs : ℕ) (hbs : 0 < bs) :
    ∀ (f g : ℕ) (xs : List α), xs.length ≤ f → xs.length ≤ g →
      batchesAux f bs xs = batchesAux g bs xs := by
  intro f
  induction f with
  | zero =>
    intro g xs hf hg
    have hx : xs = [] := List.length_eq_zero.1 (Nat.le_zero.1 hf)
    subst hx
    rw [batchesAux_nil, batchesAux_nil]
  | succ f ih =>
    intro g xs hf hg
    cases xs with
    | nil => rw [batchesAux_nil, batchesAux_nil]
    | cons a t =>
      rw [List.length_cons] at hf hg
      cases g with
      | zero => exact absurd hg (by omega)
      | succ g =>
        show ((a :: t).take bs) :: batchesAux f bs ((a :: t).drop bs) =
          ((a :: t).take bs) :: batchesAux g bs ((a :: t).drop bs)
        congr 1
        have hd : ((a :: t).drop bs).length ≤ t.length := by
          rw [List.length_drop, List.length_cons]
          omega
        exact ih g _ (hd.trans (by omega)) (hd.trans (by omega))

theorem batches_nil (bs : ℕ) : batches bs ([] : List α) = [] := by
  unfold batches
  by_cases h : bs = 0
  · rw [if_pos h]
  · rw [if_neg h]
    exact batchesAux_nil _ _

theorem batches_cons_eq (bs : ℕ) (hbs : 0 < bs) (a : α) (t : List α) :
    batches bs (a :: t) = (a :: t).take bs :: batches bs ((a :: t).drop bs) := by
  unfold batches
  rw [if_neg hbs.ne', if_neg hbs.ne']
  show ((a :: t).take bs) :: batchesAux t.length bs ((a :: t).drop bs) =
    (a :: t).take bs :: batchesAux ((a :: t).drop bs).length bs ((a :: t).drop bs)
  congr 1
  apply batchesAux_fuel_eq bs hbs
  · rw [List.length_drop, List.length_cons]
    omega
  · exact le_refl _

theorem batches_flatten (bs : ℕ) (hbs : 0 < bs) :
    ∀ (n : ℕ) (xs : List α), xs.length ≤ n → (batches bs xs).flatten = xs := by
  intro n
  induction n with
  | zero =>
    intro xs h
    have hx : xs = [] := List.length_eq_zero.1 (Nat.le_zero.1 h)
    subst hx
    rw [batches_nil]
    rfl
  | succ n ih =>
    intro xs h
    cases xs with
    | nil => rw [batches_nil]; rfl
    | cons a t =>
      rw [List.length_cons] at h
      rw [batches_cons_eq bs hbs, List.flatten_cons, ih _ ?_]
      · exact List.take_append_drop bs (a :: t)
      · rw [List.length_drop, List.length_cons]
        omega

theorem batches_length (bs : ℕ) (hbs : 0 < bs) :
    ∀ (n : ℕ) (xs : List α), xs.length ≤ n →
      (batches bs xs).length = (xs.length + bs - 1) / bs := by
  intro n
  induction n with
  | zero =>
    intro xs h
    have hx : xs = [] := List.length_eq_zero.1 (Nat.le_zero.1 h)
    subst hx
    rw [batches_nil]
    simp only [List.length_nil]
    exact (Nat.div_eq_of_lt (by omega)).symm
  | succ n ih =>
    intro xs h
    cases xs with
    | nil =>
      rw [batches_nil]
      simp only [List.length_nil]
      exact (Nat.div_eq_of_lt (by omega)).symm
    | cons a t =>
      rw [List.length_cons] at h
      rw [batches_cons_eq bs hbs, List.length_cons, ih _ ?_]
      · rw [List.length_drop, List.length_cons]
        rcases le_or_lt (t.length + 1) bs with hle | hlt
        · have h1 : t.length + 1 - bs = 0 := by omega
          have h2 : t.length + 1 + bs - 1 = t.length + bs := by omega
          rw [h1, h2, Nat.add_div_right _ hbs]
          have h3 : (0 + bs - 1) / bs = 0 := Nat.div_eq_of_lt (by omega)
          have h4 : t.length / bs = 0 := Nat.div_eq_of_lt (by omega)
          rw [h3, h4]
        · have h1 : t.length + 1 - bs + bs - 1 = t.length := by omega
          have h2 : t.length + 1 + bs - 1 = t.length + bs := by omega
          rw [h1, h2, Nat.add_div_right _ hbs]
      · rw [List.length_drop, List.length_cons]
        omega

theorem batches_getD_length (bs : ℕ) (hbs : 0 < bs) :
    ∀ (n : ℕ) (xs : List α), xs.length ≤ n →
      ∀ i : ℕ, i + 1 < (batches bs xs).length → ((batches bs xs).getD i []).length = bs := by
  intro n
  induction n with
  | zero =>
    intro xs h i hi
    have hx : xs = [] := List.length_eq_zero.1 (Nat.le_zero.1 h)
    subst hx
    rw [batches_nil] at hi
    exact absurd hi (by simp)
  | succ n ih =>
    intro xs h i hi
    cases xs with
    | nil =>
      rw [batches_nil] at hi
      exact absurd hi (by simp)
    | cons a t =>
      rw [List.length_cons] at h
      rw [batches_cons_eq bs hbs] at hi ⊢
      cases i with
      | zero =>
        rw [List.length_cons] at hi
        have hd : (a :: t).drop bs ≠ [] := by
          intro hdrop
          rw [hdrop, batches_nil] at hi
          exact absurd hi (by simp)
        have hlen : bs < (a :: t).length := by
          by_contra hcon
          push_neg at hcon
          exact hd (List.drop_eq_nil_of_le hcon)
        rw [List.getD_cons_zero, List.length_take]
        exact min_eq_left hlen.le
      | succ i =>
        rw [List.length_cons] at hi
        rw [List.getD_cons_succ]
        refine ih _ ?_ i (by omega)
        rw [List.length_drop, List.length_cons]
        omega

theorem batches_mem_bound (bs : ℕ) (hbs : 0 < bs) :
    ∀ (n : ℕ) (xs : List α), xs.length ≤ n →
      ∀ l ∈ batches bs xs, l ≠ [] ∧ l.length ≤ bs := by
  intro n
  induction n with
  | zero =>
    intro xs h l hl
    have hx : xs = [] := List.length_eq_zero.1 (Nat.le_zero.1 h)
    subst hx
    rw [batches_nil] at hl
    exact absurd hl (List.not_mem_nil l)
  | succ n ih =>
    intro xs h l hl
    cases xs with
    | nil =>
      rw [batches_nil] at hl
      exact absurd hl (List.not_mem_nil l)
    | cons a t =>
      rw [List.length_cons] at h
      rw [batches_cons_eq bs hbs] at hl
      rcases List.mem_cons.1 hl with rfl | hl
      · constructor
        · intro hnil
          rcases List.take_eq_nil_iff.1 hnil with h0 | h0
          · exact hbs.ne' h0
          · exact List.cons_ne_nil a t h0
        · rw [List.length_take]
          exact min_le_left _ _
      · refine ih _ ?_ l hl
        rw [List.length_drop, List.length_cons]
        omega

/-- Claim C4: for every training list and every positive batch size,
`batches` yields exactly `⌈N / batch_size⌉ = (N + batch_size - 1) / batch_size`
slices; concatenating them in order gives back the training list (consecutive
slices covering every sample exactly once), every slice except possibly the
last has exactly `batch_size` samples, and every slice — the final remainder
slice included — is non-empty and no longer than `batch_size` (the remainder
is emitted, not dropped). -/
theorem c4_batches_cover (bs : ℕ) (xs : List α) (hbs : 0 < bs) :
    (batches bs xs).length = (xs.length + bs - 1) / bs ∧
      (batches bs xs).flatten = xs ∧
      (∀ i : ℕ, i + 1 < (batches bs xs).length → ((batches bs xs).getD i []).length = bs) ∧
      (∀ l ∈ batches bs xs, l ≠ [] ∧ l.length ≤ bs) :=
  ⟨batches_length bs hbs xs.length xs (le_refl _),
   batches_flatten bs hbs xs.length xs (le_refl _),
   batches_getD_length bs hbs xs.length xs (le_refl _),
   batches_mem_bound bs hbs xs.length xs (le_refl _)⟩

theorem c4_witness : (batches 64 (List.range 128)).length = 2 := by
  have h := (c4_batches_cover 64 (List.range 128) (by norm_num)).1
  rw [List.length_range] at h
  norm_num at h
  exact h

/-! ## Batch pairing under the joint shuffle -/

theorem getElem?_zipWith_some {f : α → β → γ} :
    ∀ {l1 : List α} {l2 : List β} {k : ℕ} {a : α} {b : β},
      l1[k]? = some a → l2[k]? = some b → (List.zipWith f l1 l2)[k]? = some (f a b) := by
  intro l1
  induction l1 with
  | nil => intro l2 k a b h1 _; exact absurd h1 (by simp)
  | cons x t ih =>
    intro l2 k a b h1 h2
    cases l2 with
    | nil => exact absurd h2 (by simp)
    | cons y u =>
      cases k with
      | zero =>
        simp only [List.getElem?_cons_zero, Option.some.injEq] at h1 h2
        subst h1
        subst h2
        rw [List.zipWith_cons_cons, List.getElem?_cons_zero]
      | succ k =>
        simp only [List.getElem?_cons_succ] at h1 h2
        rw [List.zipWith_cons_cons, List.getElem?_cons_succ]
        exact ih h1 h2

theorem batchesAux_zero (bs : ℕ) (xs : List α) : batchesAux 0 bs xs = [] := by
  cases xs <;> rfl

theorem batchesAux_zip (bs : ℕ) :
    ∀ (f : ℕ) (xs : List α) (ys : List β), xs.length = ys.length →
      batchesAux f bs (xs.zip ys) =
        List.zipWith List.zip (batchesAux f bs xs) (batchesAux f bs ys) := by
  intro f
  induction f with
  | zero =>
    intro xs ys _
    rw [batchesAux_zero, batchesAux_zero, batchesAux_zero]
    rfl
  | succ f ih =>
    intro xs ys h
    cases xs with
    | nil =>
      have hy : ys = [] := List.length_eq_zero.1 h.symm
      subst hy
      rfl
    | cons a t =>
      cases ys with
      | nil => exact absurd h (by simp)
      | cons b u =>
        rw [List.length_cons, List.length_cons] at h
        rw [List.zip_cons_cons]
        show (((a, b) :: t.zip u).take bs) :: batchesAux f bs (((a, b) :: t.zip u).drop bs) =
          List.zipWith List.zip
            (((a :: t).take bs) :: batchesAux f bs ((a :: t).drop bs))
            (((b :: u).take bs) :: batchesAux f bs ((b :: u).drop bs))
        rw [List.zipWith_cons_cons]
        congr 1
        · rw [← List.zip_cons_cons, take_zip_comm]
        · rw [← List.zip_cons_cons, drop_zip_comm]
          refine ih _ _ ?_
          rw [List.length_drop, List.length_drop, List.length_cons, List.length_cons]
          omega

theorem batches_zip (bs : ℕ) (xs : List α) (ys : List β) (h : xs.length = ys.length) :
    batches bs (xs.zip ys) = List.zipWith List.zip (batches bs xs) (batches bs ys) := by
  unfold batches
  by_cases h0 : bs = 0
  · rw [if_pos h0, if_pos h0, if_pos h0]
    rfl
  · rw [if_neg h0, if_neg h0, if_neg h0]
    have hlen : (xs.zip ys).length = xs.length := by
      rw [List.length_zip, ← h, min_self]
    rw [hlen, ← h]
    exact batchesAux_zip bs xs.length xs ys h

theorem reindex_zip (idx : List ℕ) (xs : List α) (ys : List β) (dx : α) (dy : β) :
    (reindex idx xs dx).zip (reindex idx ys dy) =
      idx.map (fun i => (xs.getD i dx, ys.getD i dy)) := by
  unfold reindex
  exact List.zip_map' _ _ idx

theorem mem_zip_getD (dx : α) (dy : β) :
    ∀ (xs : List α) (ys : List β) (i : ℕ), i < xs.length → xs.length = ys.length →
      (xs.getD i dx, ys.getD i dy) ∈ xs.zip ys := by
  intro xs
  induction xs with
  | nil => intro ys i hi _; exact absurd hi (by simp)
  | cons a t ih =>
    intro ys i hi hlen
    cases ys with
    | nil => exact absurd hlen (by simp)
    | cons b u =>
      rw [List.zip_cons_cons]
      cases i with
      | zero =>
        rw [List.getD_cons_zero, List.getD_cons_zero]
        exact List.mem_cons_self _ _
      | succ i =>
        rw [List.getD_cons_succ, List.getD_cons_succ]
        refine List.mem_cons_of_mem _ (ih u i ?_ ?_)
        · rw [List.length_cons] at hi; omega
        · rw [List.length_cons, List.length_cons] at hlen; omega

theorem applyShuffle_length_eq (sh : Bool) (idx : List ℕ) (xs : List α) (ys : List β)
    (dx : α) (dy : β) (hlen : xs.length = ys.length) :
    (applyShuffle sh idx xs dx).length = (applyShuffle sh idx ys dy).length := by
  cases sh <;> simp [applyShuffle, reindex, hlen]

theorem applyShuffle_zip_mem (sh : Bool) (idx : List ℕ) (xs : List α) (ys : List β)
    (dx : α) (dy : β) (hlen : xs.length = ys.length) (hidx : ∀ i ∈ idx, i < xs.length) :
    ∀ p ∈ (applyShuffle sh idx xs dx).zip (applyShuffle sh idx ys dy), p ∈ xs.zip ys := by
  cases sh with
  | false => intro p hp; simpa [applyShuffle] using hp
  | true =>
    intro p hp
    rw [show applyShuffle true idx xs dx = reindex idx xs dx from rfl,
      show applyShuffle true idx ys dy = reindex idx ys dy from rfl, reindex_zip] at hp
    obtain ⟨i, hiidx, rfl⟩ := List.mem_map.1 hp
    exact mem_zip_getD dx dy xs ys i (hidx i hiidx) hlen

/-- Claim C5: for every `(image_batch, label_batch)` pair yielded by
`Dataset.batches`, the label at index `i` belongs to the same original sample
as the image at index `i` of the same batch, also when shuffling is enabled,
because the shuffle applies one and the same index permutation `idx` jointly
to the training images and the training labels.  Concretely: the `k`-th
yielded pair is the scaler applied to the `k`-th raw image slice together with
the `k`-th label slice; zipping those two slices position-wise gives exactly
the `k`-th slice of the position-wise zipped (shuffled) training set; and
every such (image, label) pair is one of the original training pairs. -/
theorem c5_batch_pairing (scaler : List α → List α) (sh : Bool) (idx : List ℕ)
    (bs : ℕ) (xs : List α) (ys : List β) (dx : α) (dy : β)
    (hlen : xs.length = ys.length) (hidx : ∀ i ∈ idx, i < xs.length) :
    ∀ (k : ℕ) (bx : List α) (lb : List β),
      (batches bs (applyShuffle sh idx xs dx))[k]? = some bx →
      (batches bs (applyShuffle sh idx ys dy))[k]? = some lb →
        (datasetBatches scaler sh idx bs xs ys dx dy)[k]? = some (scaler bx, lb) ∧
        some (bx.zip lb) =
          (batches bs ((applyShuffle sh idx xs dx).zip (applyShuffle sh idx ys dy)))[k]? ∧
        ∀ p ∈ bx.zip lb, p ∈ xs.zip ys := by
  intro k bx lb hbx hlb
  have hlen2 : (applyShuffle sh idx xs dx).length = (applyShuffle sh idx ys dy).length :=
    applyShuffle_length_eq sh idx xs ys dx dy hlen
  have hzip : (batches bs ((applyShuffle sh idx xs dx).zip (applyShuffle sh idx ys dy)))[k]? =
      some (bx.zip lb) := by
    rw [batches_zip bs _ _ hlen2]
    exact getElem?_zipWith_some hbx hlb
  refine ⟨?_, hzip.symm, ?_⟩
  · unfold datasetBatches
    exact getElem?_zipWith_some hbx hlb
  · intro p hp
    have hbs : 0 < bs := by
      rcases Nat.eq_zero_or_pos bs with h0 | h0
      · rw [h0] at hbx
        unfold batches at hbx
        rw [if_pos rfl] at hbx
        exact absurd hbx (by simp)
      · exact h0
    have hmem : bx.zip lb ∈
        batches bs ((applyShuffle sh idx xs dx).zip (applyShuffle sh idx ys dy)) := by
      obtain ⟨hk, heq⟩ := List.getElem?_eq_some.1 hzip
      rw [← heq]
      exact List.getElem_mem hk
    have hflat : p ∈ (applyShuffle sh idx xs dx).zip (applyShuffle sh idx ys dy) := by
      rw [← batches_flatten bs hbs ((applyShuffle sh idx xs dx).zip (applyShuffle sh idx ys dy)).length _ (le_refl _)]
      exact List.mem_flatten.2 ⟨bx.zip lb, hmem, hp⟩
    exact applyShuffle_zip_mem sh idx xs ys dx dy hlen hidx p hflat

theorem c5_witness :
    (datasetBatches (fun l => l) true [1, 0] 1 [10, 20] [1, 2] 0 0)[0]? =
        some (([20] : List ℕ), ([2] : List ℕ)) ∧
      some (([20] : List ℕ).zip ([2] : List ℕ)) =
        (batches 1 ((applyShuffle true [1, 0] [10, 20] 0).zip (applyShuffle true [1, 0] [1, 2] 0)))[0]? ∧
      ∀ p ∈ ([20] : List ℕ).zip ([2] : List ℕ), p ∈ ([10, 20] : List ℕ).zip ([1, 2] : List ℕ) :=
  c5_batch_pairing (fun l => l) true [1, 0] 1 [10, 20] [1, 2] 0 0 (by decide)
    (by decide) 0 [20] [2] (by decide) (by decide)

/-! ## Optimizer scoping -/

/-- Claim C6: the two update procedures produced by `model_opt` are each
restricted to their own network's parameter set, partitioned by namespace
prefix: running the discriminator update leaves every trainable variable whose
name does not start with `'discriminator'` exactly as it was (same name, same
value, same position), and running the generator update likewise leaves every
variable whose name does not start with `'generator'` unchanged. -/
theorem c6_model_opt_frame (adamD adamG : String → α → α) (vars : List (String × α))
    (i : ℕ) (p : String × α) (hp : vars[i]? = some p) :
    (p.1.startsWith ("discriminator") = false →
      ((model_opt adamD adamG).1 vars)[i]? = some p) ∧
    (p.1.startsWith ("generator") = false →
      ((model_opt adamD adamG).2 vars)[i]? = some p) := by
  constructor
  · intro hstart
    show (updateScoped ("discriminator") adamD vars)[i]? = some p
    unfold updateScoped
    rw [List.getElem?_map, hp]
    simp [hstart]
  · intro hstart
    show (updateScoped ("generator") adamG vars)[i]? = some p
    unfold updateScoped
    rw [List.getElem?_map, hp]
    simp [hstart]

theorem c6_witness :
    ((model_opt (fun _ v => v + 1) (fun _ v => v + 1)).1
        [(("generator.w" : String), (1 : ℤ)), ("disc.w", 2)])[0]? =
        some (("generator.w" : String), (1 : ℤ)) ∧
      ((model_opt (fun _ v => v + 1) (fun _ v => v + 1)).2
        [(("generator.w" : String), (1 : ℤ)), ("disc.w", 2)])[1]? =
        some (("disc.w" : String), (2 : ℤ)) :=
  ⟨(c6_model_opt_frame (fun _ v => v + 1) (fun _ v => v + 1)
      [("generator.w", 1), ("disc.w", 2)] 0 ("generator.w", 1) (by decide)).1 (by decide),
   (c6_model_opt_frame (fun _ v => v + 1) (fun _ v => v + 1)
      [("generator.w", 1), ("disc.w", 2)] 1 ("disc.w", 2) (by decide)).2 (by decide)⟩

/-! ## Training loop: ordering, periodic logging, purity of evaluation -/

section TrainLoop

variable {X Z P L : Type}
variable (dOpt : P → X → Z → P) (gOpt : P → Z → X → P)
variable (dEval : P → X → Z → L) (gEval : P → Z → L)
variable (noise : ℕ → Z) (pe : ℕ) (bl : List X)

theorem trainStep_steps (st : TrainState X Z P L) (x : X) :
    (trainStep dOpt gOpt dEval gEval noise pe st x).steps = st.steps + 1 := rfl

theorem trainStep_params (st : TrainState X Z P L) (x : X) :
    (trainStep dOpt gOpt dEval gEval noise pe st x).params =
      gOpt (dOpt st.params x (noise (st.steps + 1))) (noise (st.steps + 1)) x := rfl

theorem trainStep_trace (st : TrainState X Z P L) (x : X) :
    (trainStep dOpt gOpt dEval gEval noise pe st x).trace =
      st.trace ++ stepTrace noise pe (st.steps + 1) x := rfl

theorem trainStep_losses (st : TrainState X Z P L) (x : X) :
    (trainStep dOpt gOpt dEval gEval noise pe st x).losses =
      if (st.steps + 1) % pe = 0
      then st.losses ++
        [(dEval (gOpt (dOpt st.params x (noise (st.steps + 1))) (noise (st.steps + 1)) x) x
            (noise (st.steps + 1)),
          gEval (gOpt (dOpt st.params x (noise (st.steps + 1))) (noise (st.steps + 1)) x)
            (noise (st.steps + 1)))]
      else st.losses := rfl

theorem traceFrom_nil (s : ℕ) : traceFrom noise pe s ([] : List X) = [] := rfl

theorem traceFrom_cons (s : ℕ) (x : X) (l : List X) :
    traceFrom noise pe s (x :: l) =
      stepTrace noise pe (s + 1) x ++ traceFrom noise pe (s + 1) l := rfl

theorem foldl_trainStep_steps :
    ∀ (l : List X) (st : TrainState X Z P L),
      (l.foldl (trainStep dOpt gOpt dEval gEval noise pe) st).steps = st.steps + l.length := by
  intro l
  induction l with
  | nil => intro st; rfl
  | cons x t ih =>
    intro st
    rw [List.foldl_cons, ih, trainStep_steps, List.length_cons]
    omega

theorem foldl_trainStep_trace :
    ∀ (l : List X) (st : TrainState X Z P L),
      (l.foldl (trainStep dOpt gOpt dEval gEval noise pe) st).trace =
        st.trace ++ traceFrom noise pe st.steps l := by
  intro l
  induction l with
  | nil => intro st; rw [List.foldl_nil, traceFrom_nil, List.append_nil]
  | cons x t ih =>
    intro st
    rw [List.foldl_cons, ih, trainStep_trace, trainStep_steps, traceFrom_cons,
      List.append_assoc]

theorem countLog_succ (s n : ℕ) :
    countLog pe s (n + 1) = (if (s + 1) % pe = 0 then 1 else 0) + countLog pe (s + 1) n := rfl

theorem countLog_add :
    ∀ (m n s : ℕ), countLog pe s (m + n) = countLog pe s m + countLog pe (s + m) n := by
  intro m
  induction m with
  | zero =>
    intro n s
    rw [Nat.zero_add, Nat.add_zero, show countLog pe s 0 = 0 from rfl, Nat.zero_add]
  | succ m ih =>
    intro n s
    have h1 : m + 1 + n = (m + n) + 1 := by omega
    rw [h1, countLog_succ, ih, countLog_succ]
    have h2 : s + 1 + m = s + (m + 1) := by omega
    rw [h2, Nat.add_assoc]

theorem foldl_trainStep_losses_len :
    ∀ (l : List X) (st : TrainState X Z P L),
      (l.foldl (trainStep dOpt gOpt dEval gEval noise pe) st).losses.length =
        st.losses.length + countLog pe st.steps l.length := by
  intro l
  induction l with
  | nil => intro st; rfl
  | cons x t ih =>
    intro st
    rw [List.foldl_cons, ih, trainStep_steps, List.length_cons, countLog_succ]
    by_cases h : (st.steps + 1) % pe = 0
    · rw [if_pos h]
      have hlen : (trainStep dOpt gOpt dEval gEval noise pe st x).losses.length =
          st.losses.length + 1 := by
        rw [trainStep_losses, if_pos h, List.length_append]
        rfl
      rw [hlen]
      omega
    · rw [if_neg h]
      have hlen : (trainStep dOpt gOpt dEval gEval noise pe st x).losses.length =
          st.losses.length := by
        rw [trainStep_losses, if_neg h]
      rw [hlen]
      omega

theorem foldl_trainStep_params_ind (pe2 : ℕ) :
    ∀ (l : List X) (st st2 : TrainState X Z P L),
      st.params = st2.params → st.steps = st2.steps →
        (l.foldl (trainStep dOpt gOpt dEval gEval noise pe) st).params =
            (l.foldl (trainStep dOpt gOpt dEval gEval noise pe2) st2).params ∧
          (l.foldl (trainStep dOpt gOpt dEval gEval noise pe) st).steps =
            (l.foldl (trainStep dOpt gOpt dEval gEval noise pe2) st2).steps := by
  intro l
  induction l with
  | nil => intro st st2 hp hs; exact ⟨hp, hs⟩
  | cons x t ih =>
    intro st st2 hp hs
    rw [List.foldl_cons, List.foldl_cons]
    apply ih
    · rw [trainStep_params, trainStep_params, hp, hs]
    · rw [trainStep_steps, trainStep_steps, hs]

theorem traceFrom_append :
    ∀ (l1 l2 : List X) (s : ℕ),
      traceFrom noise pe s (l1 ++ l2) =
        traceFrom noise pe s l1 ++ traceFrom noise pe (s + l1.length) l2 := by
  intro l1
  induction l1 with
  | nil => intro l2 s; rw [List.nil_append, traceFrom_nil, List.nil_append, List.length_nil, Nat.add_zero]
  | cons x t ih =>
    intro l2 s
    rw [List.cons_append, traceFrom_cons, traceFrom_cons, ih, List.append_assoc,
      List.length_cons]
    have harith : s + 1 + t.length = s + (t.length + 1) := by omega
    rw [harith]

theorem traceFrom_mem_block [Inhabited X] :
    ∀ (l : List X) (s k : ℕ), k < l.length →
      ∃ u v, traceFrom noise pe s l =
        u ++ stepTrace noise pe (s + k + 1) (l.getD k default) ++ v := by
  intro l
  induction l with
  | nil => intro s k hk; exact absurd hk (by simp)
  | cons x t ih =>
    intro s k hk
    rw [traceFrom_cons]
    cases k with
    | zero =>
      refine ⟨[], traceFrom noise pe (s + 1) t, ?_⟩
      rw [List.getD_cons_zero, List.nil_append, Nat.add_zero]
    | succ k =>
      rw [List.length_cons] at hk
      obtain ⟨u, v, huv⟩ := ih (s + 1) k (by omega)
      refine ⟨stepTrace noise pe (s + 1) x ++ u, v, ?_⟩
      rw [huv, List.getD_cons_succ]
      have harith : s + 1 + k + 1 = s + (k + 1) + 1 := by omega
      rw [harith]
      simp only [List.append_assoc]

theorem flatRepeat_length : ∀ (E : ℕ), ((List.replicate E bl).flatten).length = E * bl.length := by
  intro E
  induction E with
  | zero => rw [Nat.zero_mul]; rfl
  | succ E ih =>
    rw [List.replicate_succ, List.flatten_cons, List.length_append, ih, Nat.succ_mul]
    omega

theorem flatRepeat_getD [Inhabited X] :
    ∀ (E k : ℕ), k < E * bl.length →
      ((List.replicate E bl).flatten).getD k default = bl.getD (k % bl.length) default := by
  intro E
  induction E with
  | zero => intro k hk; exact absurd hk (by simp)
  | succ E ih =>
    intro k hk
    rw [List.replicate_succ, List.flatten_cons]
    rcases lt_or_le k bl.length with hlt | hle
    · rw [List.getD_append _ _ _ _ hlt, Nat.mod_eq_of_lt hlt]
    · rw [List.getD_append_right _ _ _ _ hle, Nat.mod_eq_sub_mod hle]
      refine ih (k - bl.length) ?_
      rw [Nat.succ_mul] at hk
      omega

theorem foldl_epochs_steps :
    ∀ (E : ℕ) (st : TrainState X Z P L),
      ((List.range E).foldl
          (fun st _ => bl.foldl (trainStep dOpt gOpt dEval gEval noise pe) st) st).steps =
        st.steps + E * bl.length := by
  intro E
  induction E with
  | zero => intro st; rw [List.range_zero, List.foldl_nil, Nat.zero_mul, Nat.add_zero]
  | succ E ih =>
    intro st
    rw [List.range_succ, List.foldl_append, List.foldl_cons, List.foldl_nil,
      foldl_trainStep_steps, ih, Nat.succ_mul]
    omega

theorem foldl_epochs_trace :
    ∀ (E : ℕ) (st : TrainState X Z P L),
      ((List.range E).foldl
          (fun st _ => bl.foldl (trainStep dOpt gOpt dEval gEval noise pe) st) st).trace =
        st.trace ++ traceFrom noise pe st.steps ((List.replicate E bl).flatten) := by
  intro E
  induction E with
  | zero =>
    intro st
    rw [List.range_zero, List.foldl_nil, List.replicate_zero, List.flatten_nil,
      traceFrom_nil, List.append_nil]
  | succ E ih =>
    intro st
    rw [List.range_succ, List.foldl_append, List.foldl_cons, List.foldl_nil,
      foldl_trainStep_trace, ih, foldl_epochs_steps,
      List.replicate_succ', List.flatten_append, List.flatten_cons, List.flatten_nil,
      List.append_nil, traceFrom_append, flatRepeat_length, List.append_assoc]

theorem foldl_epochs_losses_len :
    ∀ (E : ℕ) (st : TrainState X Z P L),
      ((List.range E).foldl
          (fun st _ => bl.foldl (trainStep dOpt gOpt dEval gEval noise pe) st) st).losses.length =
        st.losses.length + countLog pe st.steps (E * bl.length) := by
  intro E
  induction E with
  | zero => intro st; rw [List.range_zero, List.foldl_nil, Nat.zero_mul]; rfl
  | succ E ih =>
    intro st
    rw [List.range_succ, List.foldl_append, List.foldl_cons, List.foldl_nil,
      foldl_trainStep_losses_len, ih, foldl_epochs_steps, Nat.succ_mul, countLog_add,
      Nat.add_assoc]

theorem foldl_epochs_params_ind (pe2 : ℕ) :
    ∀ (E : ℕ) (st st2 : TrainState X Z P L),
      st.params = st2.params → st.steps = st2.steps →
        ((List.range E).foldl
            (fun st _ => bl.foldl (trainStep dOpt gOpt dEval gEval noise pe) st) st).params =
          ((List.range E).foldl
            (fun st _ => bl.foldl (trainStep dOpt gOpt dEval gEval noise pe2) st) st2).params ∧
        ((List.range E).foldl
            (fun st _ => bl.foldl (trainStep dOpt gOpt dEval gEval noise pe) st) st).steps =
          ((List.range E).foldl
            (fun st _ => bl.foldl (trainStep dOpt gOpt dEval gEval noise pe2) st) st2).steps := by
  intro E
  induction E with
  | zero =>
    intro st st2 hp hs
    rw [List.range_zero, List.foldl_nil, List.foldl_nil]
    exact ⟨hp, hs⟩
  | succ E ih =>
    intro st st2 hp hs
    rw [List.range_succ, List.foldl_append, List.foldl_append, List.foldl_cons,
      List.foldl_cons, List.foldl_nil, List.foldl_nil]
    obtain ⟨hp2, hs2⟩ := ih st st2 hp hs
    exact foldl_trainStep_params_ind dOpt gOpt dEval gEval noise pe pe2 bl _ _ hp2 hs2

end TrainLoop

theorem countLog_eq_div (pe : ℕ) :
    ∀ (n s : ℕ), countLog pe s n = (s + n) / pe - s / pe := by
  intro n
  induction n with
  | zero =>
    intro s
    rw [Nat.add_zero, show countLog pe s 0 = 0 from rfl]
    exact (Nat.sub_self _).symm
  | succ n ih =>
    intro s
    rw [countLog_succ, ih (s + 1)]
    have hsucc : (s + 1) / pe = s / pe + if pe ∣ s + 1 then 1 else 0 := Nat.succ_div s pe
    have hmono : (s + 1) / pe ≤ (s + 1 + n) / pe := Nat.div_le_div_right (by omega)
    have harith : s + (n + 1) = s + 1 + n := by omega
    rw [harith]
    by_cases h : (s + 1) % pe = 0
    · rw [if_pos h]
      have hdvd : pe ∣ s + 1 := Nat.dvd_iff_mod_eq_zero.2 h
      rw [if_pos hdvd] at hsucc
      rw [hsucc] at hmono ⊢
      generalize hA : (s + 1 + n) / pe = A at hmono ⊢
      generalize hB : s / pe = B at hmono ⊢
      omega
    · rw [if_neg h]
      have hdvd : ¬ pe ∣ s + 1 := fun hd => h (Nat.dvd_iff_mod_eq_zero.1 hd)
      rw [if_neg hdvd] at hsucc
      rw [hsucc]
      simp

theorem countLog_div (pe n : ℕ) : countLog pe 0 n = n / pe := by
  rw [countLog_eq_div pe n 0, Nat.zero_add, Nat.zero_div, Nat.sub_zero]

theorem train_trace_eq (X Z P L : Type) (dOpt : P → X → Z → P) (gOpt : P → Z → X → P)
    (dEval : P → X → Z → L) (gEval : P → Z → L) (noise : ℕ → Z)
    (pe epochs : ℕ) (bl : List X) (p0 : P) :
    (train dOpt gOpt dEval gEval noise pe epochs bl p0).trace =
      traceFrom noise pe 0 ((List.replicate epochs bl).flatten) := by
  unfold train
  rw [foldl_epochs_trace]
  rw [show (⟨0, p0, [], []⟩ : TrainState X Z P L).trace = [] from rfl,
    show (⟨0, p0, [], []⟩ : TrainState X Z P L).steps = 0 from rfl, List.nil_append]

theorem train_losses_len (X Z P L : Type) (dOpt : P → X → Z → P) (gOpt : P → Z → X → P)
    (dEval : P → X → Z → L) (gEval : P → Z → L) (noise : ℕ → Z)
    (pe epochs : ℕ) (bl : List X) (p0 : P) :
    (train dOpt gOpt dEval gEval noise pe epochs bl p0).losses.length =
      epochs * bl.length / pe := by
  unfold train
  rw [foldl_epochs_losses_len]
  rw [show (⟨0, p0, [], []⟩ : TrainState X Z P L).losses = [] from rfl,
    show (⟨0, p0, [], []⟩ : TrainState X Z P L).steps = 0 from rfl,
    List.length_nil, Nat.zero_add, countLog_div pe]

/-- Claim C7: in every iteration of the batch loop, a fresh noise batch is
drawn (the stream value `noise s` at the just-incremented global step `s`,
independent of the real batch), then the discriminator update runs on
`(real batch, noise batch)`, and then the generator update runs on that same
noise batch together with the same real batch; the generator update never
precedes the discriminator update within a step.  Stated over the ghost event
trace of `train`: for every global step `k + 1`, the trace contains the
contiguous, ordered block draw-noise, discriminator-update,
generator-update (followed by the periodic loss evaluation when due), all
three carrying the same step's noise `noise (k + 1)` and the step's real
batch. -/
theorem c7_update_order (X Z P L : Type) [Inhabited X]
    (dOpt : P → X → Z → P) (gOpt : P → Z → X → P)
    (dEval : P → X → Z → L) (gEval : P → Z → L) (noise : ℕ → Z)
    (pe epochs : ℕ) (bl : List X) (p0 : P) (k : ℕ) (hk : k < epochs * bl.length) :
    ∃ u v, (train dOpt gOpt dEval gEval noise pe epochs bl p0).trace =
      u ++ ([TrainEvent.drawNoise (k + 1) (noise (k + 1)),
             TrainEvent.runDOpt (k + 1) (bl.getD (k % bl.length) default) (noise (k + 1)),
             TrainEvent.runGOpt (k + 1) (noise (k + 1)) (bl.getD (k % bl.length) default)] ++
            (if (k + 1) % pe = 0 then [TrainEvent.evalLoss (k + 1)] else [])) ++ v := by
  have ht := train_trace_eq X Z P L dOpt gOpt dEval gEval noise pe epochs bl p0
  have hlen := flatRepeat_length bl epochs
  obtain ⟨u, v, huv⟩ :=
    traceFrom_mem_block noise pe ((List.replicate epochs bl).flatten) 0 k (by rw [hlen]; exact hk)
  refine ⟨u, v, ?_⟩
  rw [ht, huv, flatRepeat_getD bl epochs k hk]
  have h0 : 0 + k + 1 = k + 1 := by omega
  rw [h0]
  rfl

theorem c7_witness :
    ∃ u v, (train (fun p x z => p + x + z) (fun p z x => p + z + x)
        (fun p x z => p + x + z) (fun p z => p + z) (fun s => s) 10 1 [5, 6] 0).trace =
      u ++ ([TrainEvent.drawNoise 2 2, TrainEvent.runDOpt 2 6 2, TrainEvent.runGOpt 2 2 6] ++
            (if 2 % 10 = 0 then [TrainEvent.evalLoss 2] else [])) ++ v :=
  c7_update_order ℕ ℕ ℕ ℕ (fun p x z => p + x + z) (fun p z x => p + z + x)
    (fun p x z => p + x + z) (fun p z => p + z) (fun s => s) 10 1 [5, 6] 0 1 (by decide)

/-- Claim C8: a `(d_loss, g_loss)` record is appended to the loss history
exactly at those steps whose global step count is divisible by `print_every`
(third conjunct: one trainStep appends exactly when `steps % print_every = 0`,
and the recorded pair is a pure evaluation of the current parameters);
recording applies no gradient update — the whole parameter trajectory is
independent of `print_every` (second conjunct); consequently, after `E` epochs
of `B` batch iterations the loss history has length `⌊E*B / print_every⌋`
(first conjunct). -/
theorem c8_periodic_log (X Z P L : Type)
    (dOpt : P → X → Z → P) (gOpt : P → Z → X → P)
    (dEval : P → X → Z → L) (gEval : P → Z → L) (noise : ℕ → Z)
    (pe pe2 epochs : ℕ) (bl : List X) (p0 : P) (hpe : 0 < pe) :
    (train dOpt gOpt dEval gEval noise pe epochs bl p0).losses.length =
        epochs * bl.length / pe ∧
      (train dOpt gOpt dEval gEval noise pe epochs bl p0).params =
        (train dOpt gOpt dEval gEval noise pe2 epochs bl p0).params ∧
      (∀ (st : TrainState X Z P L) (x : X),
        (trainStep dOpt gOpt dEval gEval noise pe st x).losses =
          if (st.steps + 1) % pe = 0
          then st.losses ++
            [(dEval (gOpt (dOpt st.params x (noise (st.steps + 1))) (noise (st.steps + 1)) x) x
                (noise (st.steps + 1)),
              gEval (gOpt (dOpt st.params x (noise (st.steps + 1))) (noise (st.steps + 1)) x)
                (noise (st.steps + 1)))]
          else st.losses) := by
  refine ⟨train_losses_len X Z P L dOpt gOpt dEval gEval noise pe epochs bl p0, ?_, ?_⟩
  · unfold train
    exact (foldl_epochs_params_ind dOpt gOpt dEval gEval noise pe bl pe2 epochs
      ⟨0, p0, [], []⟩ ⟨0, p0, [], []⟩ rfl rfl).1
  · intro st x
    exact trainStep_losses dOpt gOpt dEval gEval noise pe st x

theorem c8_witness :
    (train (fun p x z => p + x + z) (fun p z x => p + z + x) (fun p x z => p + x + z)
        (fun p z => p + z) (fun s => s) 2 1 [5, 6, 7, 8] 0).losses.length = 2 := by
  have h := (c8_periodic_log ℕ ℕ ℕ ℕ (fun p x z => p + x + z) (fun p z x => p + z + x)
    (fun p x z => p + x + z) (fun p z => p + z) (fun s => s) 2 3 1 [5, 6, 7, 8] 0 (by decide)).1
  simpa using h
